import Mathlib

/-!
Shallow embedding of the simulation engine of the Process-Simulator
repository (`scheduler.py`): the `Process` data model, the three dispatch
algorithms (FCFS, SJF non-preemptive, Round-Robin), timeline normalization
(`coalesce_timeline`) and metrics computation (`compute_metrics`).

Python integers are modelled as `Int`; time values and bursts are exact.
Python's in-place mutation of the caller's process list by
`update_originals` is modelled by having each `simulate_*` function return
the updated originals alongside the timeline.  Python's stable `list.sort`
with a tuple key is modelled by `List.insertionSort` with the corresponding
lexicographic relation (a stable sort; for a total preorder every stable
sort computes the same list, so this is faithful to CPython's Timsort).
The `while` loops of SJF and RR are modelled with explicit fuel; the fuel
bounds chosen strictly dominate the loops' iteration counts for valid
inputs, and every universally quantified theorem below is proved for every
fuel value, so no termination argument is smuggled in.
-/

namespace ProcSim

/-- One schedulable unit of work (dataclass `Process` in scheduler.py).
`remaining`, `first_start`, `completion` are the mutable simulation
fields; `__post_init__` sets `remaining = burst`. -/
structure Process where
  pid : String
  arrival : Int
  burst : Int
  remaining : Int
  first_start : Option Int
  completion : Option Int
deriving DecidableEq, Repr

/-- The structured failures of the engine: `ValueError` for a non-positive
burst, a negative arrival, or a non-positive RR quantum. -/
inductive SchedError where
  | InvalidBurst
  | InvalidArrival
  | InvalidQuantum
deriving DecidableEq, Repr

instance {ε α : Type} [DecidableEq ε] [DecidableEq α] : DecidableEq (Except ε α) :=
  fun a b =>
    match a, b with
    | .ok x, .ok y =>
        if h : x = y then isTrue (by rw [h])
        else isFalse (by intro hc; cases hc; exact h rfl)
    | .error x, .error y =>
        if h : x = y then isTrue (by rw [h])
        else isFalse (by intro hc; cases hc; exact h rfl)
    | .ok _, .error _ => isFalse (by intro hc; cases hc)
    | .error _, .ok _ => isFalse (by intro hc; cases hc)

/-- Construction of a `Process` from a descriptor, with the validation
performed by `Process.__post_init__`: the burst check runs first, then the
arrival check; on success `remaining` is initialized to `burst` and
`first_start` / `completion` are unset. -/
def mkProcess (pid : String) (arrival burst : Int) : Except SchedError Process :=
  if burst ≤ 0 then .error .InvalidBurst
  else if arrival < 0 then .error .InvalidArrival
  else .ok { pid := pid, arrival := arrival, burst := burst,
             remaining := burst, first_start := none, completion := none }

/-- `deep_copy_procs`: fresh copies built as `Process(p.pid, p.arrival,
p.burst)`, so `__post_init__` resets `remaining := burst` and clears
`first_start` / `completion`.  (The re-validation in `__post_init__`
cannot fire for processes that were themselves built by the validated
constructor.) -/
def deep_copy_procs (procs : List Process) : List Process :=
  procs.map fun p =>
    { pid := p.pid, arrival := p.arrival, burst := p.burst,
      remaining := p.burst, first_start := none, completion := none }

/-- A timeline segment `(start, end, pid)`; `none` marks CPU idle. -/
abbrev Seg := Int × Int × Option String

/-- Minimum of a list of integers (`min(...)` in Python); `none` on the
empty list, where Python would raise. -/
def minList : List Int → Option Int
  | [] => none
  | a :: as => some (as.foldl min a)

/-- Maximum of a list of integers (`max(...)` in Python). -/
def maxList : List Int → Option Int
  | [] => none
  | a :: as => some (as.foldl max a)

/-- `update_originals`: copy the computed fields (`first_start`,
`completion`, `remaining`) back onto the caller's records, matched by pid.
The Python dict `bypid` keeps the last occurrence of a duplicated pid,
hence the `reverse` before `find?`; the `none` branch models the
(unreachable in the engine) case of a pid missing from `src`. -/
def update_originals (target src : List Process) : List Process :=
  target.map fun t =>
    match src.reverse.find? (fun s => s.pid == t.pid) with
    | some s => { t with first_start := s.first_start,
                         completion := s.completion,
                         remaining := s.remaining }
    | none => t

/-- Tail of `coalesce_timeline`: `cur` is the last element of Python's
`merged` list; a following segment is merged into it exactly when it has
the same pid and `ps <= s == pe`. -/
def coalesce_aux : Seg → List Seg → List Seg
  | cur, [] => [cur]
  | cur, (s, e, pid) :: rest =>
      if pid = cur.2.2 ∧ cur.1 ≤ s ∧ s = cur.2.1 then
        coalesce_aux (cur.1, e, pid) rest
      else
        cur :: coalesce_aux (s, e, pid) rest

/-- `coalesce_timeline`: merge adjacent segments with the same pid
(including `None` for idle) when they touch. -/
def coalesce_timeline : List Seg → List Seg
  | [] => []
  | first :: rest => coalesce_aux first rest

/-- The key order of `P.sort(key=lambda x: (x.arrival, x.pid))`:
lexicographic non-strict comparison of `(arrival, pid)`. -/
def fcfsRel (a b : Process) : Prop :=
  a.arrival < b.arrival ∨ (a.arrival = b.arrival ∧ a.pid ≤ b.pid)

instance : DecidableRel fcfsRel := fun a b => by
  unfold fcfsRel; infer_instance

/-- The key order of `ready.sort(key=lambda x: (x.burst, x.arrival,
x.pid))` in SJF: lexicographic non-strict comparison of
`(burst, arrival, pid)`. -/
def sjfRel (a b : Process) : Prop :=
  a.burst < b.burst ∨
    (a.burst = b.burst ∧
      (a.arrival < b.arrival ∨ (a.arrival = b.arrival ∧ a.pid ≤ b.pid)))

instance : DecidableRel sjfRel := fun a b => by
  unfold sjfRel; infer_instance

instance : IsTotal Process fcfsRel where
  total a b := by
    unfold fcfsRel
    rcases lt_trichotomy a.arrival b.arrival with h | h | h
    · exact Or.inl (Or.inl h)
    · rcases le_total a.pid b.pid with hp | hp
      · exact Or.inl (Or.inr ⟨h, hp⟩)
      · exact Or.inr (Or.inr ⟨h.symm, hp⟩)
    · exact Or.inr (Or.inl h)

instance : IsTrans Process fcfsRel where
  trans a b c hab hbc := by
    unfold fcfsRel at *
    rcases hab with h1 | ⟨h1, hp1⟩ <;> rcases hbc with h2 | ⟨h2, hp2⟩
    · exact Or.inl (h1.trans h2)
    · exact Or.inl (h2 ▸ h1)
    · exact Or.inl (h1 ▸ h2)
    · exact Or.inr ⟨h1.trans h2, hp1.trans hp2⟩

instance : IsTotal Process sjfRel where
  total a b := by
    unfold sjfRel
    rcases lt_trichotomy a.burst b.burst with h | h | h
    · exact Or.inl (Or.inl h)
    · rcases lt_trichotomy a.arrival b.arrival with h2 | h2 | h2
      · exact Or.inl (Or.inr ⟨h, Or.inl h2⟩)
      · rcases le_total a.pid b.pid with hp | hp
        · exact Or.inl (Or.inr ⟨h, Or.inr ⟨h2, hp⟩⟩)
        · exact Or.inr (Or.inr ⟨h.symm, Or.inr ⟨h2.symm, hp⟩⟩)
      · exact Or.inr (Or.inr ⟨h.symm, Or.inl h2⟩)
    · exact Or.inr (Or.inl h)

instance : IsTrans Process sjfRel where
  trans a b c hab hbc := by
    unfold sjfRel at *
    rcases hab with h1 | ⟨hb1, h1⟩
    · rcases hbc with h2 | ⟨hb2, _⟩
      · exact Or.inl (h1.trans h2)
      · exact Or.inl (hb2 ▸ h1)
    · rcases hbc with h2 | ⟨hb2, h2⟩
      · exact Or.inl (hb1 ▸ h2)
      · refine Or.inr ⟨hb1.trans hb2, ?_⟩
        rcases h1 with h1 | ⟨ha1, hp1⟩ <;> rcases h2 with h2 | ⟨ha2, hp2⟩
        · exact Or.inl (h1.trans h2)
        · exact Or.inl (ha2 ▸ h1)
        · exact Or.inl (ha1 ▸ h2)
        · exact Or.inr ⟨ha1.trans ha2, hp1.trans hp2⟩

/-- The body of the FCFS `for` loop over the sorted working set, threading
the clock `t`: emit an idle gap when the CPU would be idle, then run the
process to completion; returns the mutated working set and the raw
timeline. -/
def fcfsRun : Int → List Process → List Process × List Seg
  | _, [] => ([], [])
  | t, p :: rest =>
    let idle : List Seg := if t < p.arrival then [(t, p.arrival, none)] else []
    let t1 := if t < p.arrival then p.arrival else t
    let t2 := t1 + p.burst
    let p2 := { p with first_start := some t1, remaining := 0, completion := some t2 }
    let out := fcfsRun t2 rest
    (p2 :: out.1, idle ++ (t1, t2, some p.pid) :: out.2)

/-- `simulate_fcfs`: clone, sort by `(arrival, pid)`, run the single pass
from clock 0, write the computed fields back to the originals, coalesce.
Returns (updated originals, normalized timeline). -/
def simulate_fcfs (procs : List Process) : List Process × List Seg :=
  let P := List.insertionSort fcfsRel (deep_copy_procs procs)
  let out := fcfsRun 0 P
  (update_originals procs out.1, coalesce_timeline out.2)

/-- One pass of the SJF `while` loop, with explicit fuel.  `done` is the
set of finished pids (a duplicate-free list: a pid is added only when it
was not in `done`), `t` the clock, `tl` the raw timeline accumulated so
far.  Mirrors `simulate_sjf_nonpreemptive`'s loop body: compute the ready
set, idle-jump to the next arrival when it is empty, otherwise dispatch
the head of the ready set sorted by `(burst, arrival, pid)` and run it to
completion.  The `none`/fall-through branches are unreachable for valid
inputs (Python would raise on `min` of an empty sequence). -/
def sjfLoop : Nat → List Process → List String → Int → List Seg →
    List Process × List Seg
  | 0, P, _, _, tl => (P, tl)
  | fuel + 1, P, done, t, tl =>
    if done.length < P.length then
      let ready := P.filter fun p => p.arrival ≤ t ∧ p.pid ∉ done
      if ready.isEmpty then
        match minList ((P.filter fun p => p.pid ∉ done).map (·.arrival)) with
        | none => (P, tl)
        | some next_t =>
          if t < next_t then
            sjfLoop fuel P done next_t (tl ++ [(t, next_t, none)])
          else
            sjfLoop fuel P done t tl
      else
        match List.insertionSort sjfRel ready with
        | [] => (P, tl)
        | p :: _ =>
          let fs := match p.first_start with
            | none => some t
            | some v => some v
          let t2 := t + p.burst
          let p2 := { p with first_start := fs, remaining := 0, completion := some t2 }
          let P2 := P.map fun q => if q.pid = p.pid then p2 else q
          sjfLoop fuel P2 (done ++ [p.pid]) t2 (tl ++ [(t, t2, some p.pid)])
    else (P, tl)

/-- `simulate_sjf_nonpreemptive` up to (but not including)
`update_originals` and `coalesce_timeline`: the final working set and raw
timeline.  The clock starts at the minimum arrival (0 for an empty set);
`2 * n + 1` fuel strictly dominates the loop's iteration count (at most
`n` dispatches, each preceded by at most one idle jump). -/
def sjf_raw (procs : List Process) : List Process × List Seg :=
  let P := deep_copy_procs procs
  let t := (minList (P.map (·.arrival))).getD 0
  sjfLoop (2 * P.length + 1) P [] t []

/-- `simulate_sjf_nonpreemptive`: returns (updated originals, normalized
timeline). -/
def simulate_sjf_nonpreemptive (procs : List Process) : List Process × List Seg :=
  let out := sjf_raw procs
  (update_originals procs out.1, coalesce_timeline out.2)

/-- Order used to sort newly admitted indices inside `enqueue_arrivals`:
by `(arrival, pid)` of the indexed process. -/
def enqRel (a b : Nat × Process) : Prop := fcfsRel a.2 b.2

instance : DecidableRel enqRel := fun a b => by
  unfold enqRel; infer_instance

instance : IsTotal (Nat × Process) enqRel where
  total a b := IsTotal.total (r := fcfsRel) a.2 b.2

instance : IsTrans (Nat × Process) enqRel where
  trans _ _ _ hab hbc := IsTrans.trans (r := fcfsRel) _ _ _ hab hbc

/-- `enqueue_arrivals`: append to `ready` every index of a process that
has arrived (`arrival ≤ t`), still has work (`remaining > 0`) and is not
already in `ready`, the new indices ordered by `(arrival, pid)`.
(The first `for` loop of the Python function has an empty body and is
omitted.) -/
def enqueue_arrivals (P : List Process) (ready : List Nat) (t : Int) : List Nat :=
  let newly := P.enum.filter fun ip =>
    ip.2.arrival ≤ t ∧ ip.2.remaining > 0 ∧ ip.1 ∉ ready
  ready ++ (List.insertionSort enqRel newly).map (·.1)

/-- The mutable state of the Round-Robin loop: the working set `P`, the
ready queue of indices into `P`, the clock, the raw timeline, and a flag
recording that the loop's `break` was taken. -/
structure RRState where
  P : List Process
  ready : List Nat
  t : Int
  timeline : List Seg
  halted : Bool
deriving DecidableEq, Repr

/-- The `if not ready:` prelude of the RR loop body: jump the clock to the
earliest future arrival among unfinished processes (emitting an idle
segment for the gap) and admit arrivals; `break` (here: halt) when there
is no future arrival. -/
def rrIdle (st : RRState) : RRState :=
  let future := (st.P.filter fun p => p.remaining > 0 ∧ p.arrival > st.t).map (·.arrival)
  match minList future with
  | none => { st with halted := true }
  | some next_t =>
    let st2 :=
      if st.t < next_t then
        { st with timeline := st.timeline ++ [(st.t, next_t, none)], t := next_t }
      else st
    { st2 with ready := enqueue_arrivals st2.P st2.ready st2.t }

/-- One full iteration of the RR `while` body: the idle prelude when the
ready queue is empty (falling through to a dispatch in the same iteration
when it refills, as in the source), then dequeue the head index, run it
for `min(quantum, remaining)`, admit the arrivals that occurred during the
run, and only then either requeue the process at the tail or record its
completion.  The `[]` / `none` match arms model the `continue` and an
out-of-range index (never reachable: `ready` holds indices into `P`). -/
def rrIter (q : Int) (st : RRState) : RRState :=
  let st1 := if st.ready.isEmpty then rrIdle st else st
  if st1.halted then st1
  else
    match st1.ready with
    | [] => st1
    | idx :: rest =>
      match st1.P[idx]? with
      | none => { st1 with ready := rest }
      | some p0 =>
        let p1 := if p0.first_start = none then { p0 with first_start := some st1.t } else p0
        let run := min q p1.remaining
        let start := st1.t
        let t2 := st1.t + run
        let p2 := { p1 with remaining := p1.remaining - run }
        let P2 := st1.P.set idx p2
        let tl2 := st1.timeline ++ [(start, t2, some p2.pid)]
        let ready2 := enqueue_arrivals P2 rest t2
        if p2.remaining > 0 then
          { P := P2, ready := ready2 ++ [idx], t := t2, timeline := tl2, halted := false }
        else
          { P := P2.set idx { p2 with completion := some t2 },
            ready := ready2, t := t2, timeline := tl2, halted := false }

/-- The RR `while any(p.remaining > 0 ...)` loop, driven by fuel. -/
def rrLoop (q : Int) : Nat → RRState → RRState
  | 0, st => st
  | fuel + 1, st =>
    if st.halted then st
    else if st.P.any (fun p => p.remaining > 0) then rrLoop q fuel (rrIter q st)
    else st

/-- The initial RR state: clone the input, start the clock at the minimum
arrival (default 0), seed the ready queue with the processes already
arrived. -/
def rrInit (procs : List Process) : RRState :=
  let P := deep_copy_procs procs
  let t := (minList (P.map (·.arrival))).getD 0
  { P := P, ready := enqueue_arrivals P [] t, t := t, timeline := [], halted := false }

/-- Fuel strictly dominating the RR loop's iteration count for valid
inputs: at most total burst dispatches with positive run, plus at most one
stale pop per process, plus slack. -/
def rrFuel (procs : List Process) : Nat :=
  let P := deep_copy_procs procs
  P.foldl (fun acc p => acc + p.remaining.toNat) 0 + 2 * P.length + 2

/-- `simulate_rr` up to (but not including) `update_originals` and
`coalesce_timeline`: the final loop state, with the raw timeline. -/
def rr_raw (procs : List Process) (q : Int) : RRState :=
  rrLoop q (rrFuel procs) (rrInit procs)

/-- `simulate_rr`: validate the quantum, run the loop, write computed
fields back to the originals, coalesce.  Returns (updated originals,
normalized timeline) on success. -/
def simulate_rr (procs : List Process) (q : Int) :
    Except SchedError (List Process × List Seg) :=
  if q ≤ 0 then .error .InvalidQuantum
  else
    let fin := rr_raw procs q
    .ok (update_originals procs fin.P, coalesce_timeline fin.timeline)

/-- Per-process metrics row (`per_process` dict values in
`compute_metrics`): waiting, turnaround, response, completion. -/
structure PerProc where
  WT : Int
  TAT : Int
  RT : Int
  CT : Int
deriving DecidableEq, Repr

/-- Aggregate metrics (`overall` dict).  `THROUGHPUT = none` models the
`float('inf')` branch taken when the simulation span is zero with a
non-empty process set; all other values are exact rationals (the Python
floats are exact for the integer-derived values the engine produces). -/
structure OverallStats where
  AVG_WT : Rat
  AVG_TAT : Rat
  AVG_RT : Rat
  THROUGHPUT : Option Rat
  CPU_UTIL : Rat
deriving DecidableEq, Repr

/-- The result of `compute_metrics`; `overall = none` models the empty
`overall` dict returned for an empty process list. -/
structure Metrics where
  per_process : List (String × PerProc)
  overall : Option OverallStats
deriving DecidableEq, Repr

/-- `compute_metrics`: per-process and aggregate statistics.  Returns
`none` (the `RuntimeError`) when some process is missing `completion` or
`first_start`; mirrors the source's guards for zero simulation span. -/
def compute_metrics (procs : List Process) : Option Metrics :=
  match procs with
  | [] => some { per_process := [], overall := none }
  | _ =>
    let min_arrival := (minList (procs.map (·.arrival))).getD 0
    let max_completion := (maxList (procs.map fun p => p.completion.getD 0)).getD 0
    let total_busy : Int := procs.foldl (fun acc p => acc + p.burst) 0
    let total_time : Int :=
      if max_completion > min_arrival then max_completion - min_arrival else 0
    let cpu_util : Rat :=
      if total_time > 0 then (total_busy : Rat) / (total_time : Rat) * 100 else 0
    let n : Nat := procs.length
    let throughput : Option Rat :=
      if total_time > 0 then some ((n : Rat) / (total_time : Rat)) else none
    match procs.mapM (fun p =>
        match p.completion, p.first_start with
        | some c, some f => some (p, c, f)
        | _, _ => none) with
    | none => none
    | some rows =>
      let per := rows.map fun r =>
        (r.1.pid,
          ({ WT := (r.2.1 - r.1.arrival) - r.1.burst,
             TAT := r.2.1 - r.1.arrival,
             RT := r.2.2 - r.1.arrival,
             CT := r.2.1 } : PerProc))
      let sum_wt : Int := rows.foldl (fun acc r => acc + ((r.2.1 - r.1.arrival) - r.1.burst)) 0
      let sum_tat : Int := rows.foldl (fun acc r => acc + (r.2.1 - r.1.arrival)) 0
      let sum_rt : Int := rows.foldl (fun acc r => acc + (r.2.2 - r.1.arrival)) 0
      some { per_process := per,
             overall := some
               { AVG_WT := (sum_wt : Rat) / (n : Rat),
                 AVG_TAT := (sum_tat : Rat) / (n : Rat),
                 AVG_RT := (sum_rt : Rat) / (n : Rat),
                 THROUGHPUT := throughput,
                 CPU_UTIL := cpu_util } }

/-- The identity fields of a process: `(pid, arrival, burst)`.  These are
the caller-supplied descriptor data, as opposed to the derived simulation
fields. -/
def descriptor (p : Process) : String × Int × Int := (p.pid, p.arrival, p.burst)

/-! ## Claim theorems: concrete evaluations -/

/-- Claim C1 (code_bug evidence): with processes P1(arrival 0, burst 4)
and P2(arrival 1, burst 3) and quantum 2, P2 arrives before the first
quantum of P1 expires at t = 2.  After that first dispatch the source's
`enqueue_arrivals(t)` re-admits the just-preempted P1 itself (it was
popped, so `0 not in ready`), placing it — sorted by `(arrival, pid)` —
AHEAD of the newcomer P2, and the subsequent `ready.append(idx)` adds P1 a
second time: the queue is `[P1, P2, P1]`, not `[P2, P1]` as the claim
requires.  The first conjunct shows iteration 1 dispatched P1 over
`[0, 2)`; the second shows the resulting queue. -/
theorem c1_rr_preempted_at_head_and_duplicated :
    (rrLoop 2 1 (rrInit [⟨"P1", 0, 4, 4, none, none⟩, ⟨"P2", 1, 3, 3, none, none⟩])).timeline
        = [(0, 2, some "P1")] ∧
      (rrLoop 2 1 (rrInit [⟨"P1", 0, 4, 4, none, none⟩, ⟨"P2", 1, 3, 3, none, none⟩])).ready
        = [0, 1, 0] := by
  constructor <;> decide

/-- Claim C2 (code_bug evidence): on P1(0,4), P2(1,3) with quantum 2 the
code does NOT produce the claimed timeline `P1[0,2) P2[2,4) P1[4,6)
P2[6,7)`: because the preempted process is re-admitted ahead of the
newcomer and duplicated, the actual normalized timeline is
`P1[0,4) P2[4,6) P1[6,6) P2[6,7)` (including a zero-length stale
segment), with response times P1:0 / P2:3 (claim: P2:1).  Waiting times
(P1:2, P2:3) and CPU utilization (100%) match the claim only by
coincidence of the completion-reassignment bug. -/
theorem c2_rr_worked_example_actual_output :
    simulate_rr [⟨"P1", 0, 4, 4, none, none⟩, ⟨"P2", 1, 3, 3, none, none⟩] 2
        = Except.ok
            ([⟨"P1", 0, 4, 0, some 0, some 6⟩, ⟨"P2", 1, 3, 0, some 4, some 7⟩],
             [(0, 4, some "P1"), (4, 6, some "P2"), (6, 6, some "P1"), (6, 7, some "P2")]) ∧
      compute_metrics [⟨"P1", 0, 4, 0, some 0, some 6⟩, ⟨"P2", 1, 3, 0, some 4, some 7⟩]
        = some { per_process :=
                   [("P1", { WT := 2, TAT := 6, RT := 0, CT := 6 }),
                    ("P2", { WT := 3, TAT := 6, RT := 3, CT := 7 })],
                 overall := some
                   { AVG_WT := (5 : Rat) / 2, AVG_TAT := 6, AVG_RT := (3 : Rat) / 2,
                     THROUGHPUT := some ((2 : Rat) / 7), CPU_UTIL := 100 } } := by
  constructor
  · decide
  · unfold compute_metrics
    norm_num [minList, maxList, List.mapM, List.mapM.loop]

/-- Claim C4 (code_bug evidence): on P1(0,4), P2(2,5) with quantum 2 the
normalized Round-Robin timeline contains the zero-length segment
`(6, 6, P1)` — a stale duplicate of the already-finished P1 popped from
the ready queue — so the claimed `end > start` fails for a valid process
set.  (Independently, FCFS timelines start at clock 0 rather than at the
minimum arrival.) -/
theorem c4_rr_zero_length_segment :
    (simulate_rr [⟨"P1", 0, 4, 4, none, none⟩, ⟨"P2", 2, 5, 5, none, none⟩] 2).map (·.2)
        = Except.ok
            [(0, 4, some "P1"), (4, 6, some "P2"), (6, 6, some "P1"), (6, 9, some "P2")] ∧
      ¬ ((6 : Int) < 6) := by
  constructor
  · decide
  · decide

/-- Claim C5 (code_bug evidence): on P1(0,4), P2(2,5) with quantum 2, P1's
`completion` is assigned 4 when P1 finishes at the second dispatch, and
then REASSIGNED to 6 when the stale duplicate of P1 left in the ready
queue is popped at t = 6 (its zero-length run re-executes the
`completion = t` branch).  The two conjuncts read the working set after 2
and after 4 loop iterations. -/
theorem c5_rr_completion_reassigned :
    (rrLoop 2 2 (rrInit [⟨"P1", 0, 4, 4, none, none⟩, ⟨"P2", 2, 5, 5, none, none⟩])).P.map
        (·.completion) = [some 4, none] ∧
      (rrLoop 2 4 (rrInit [⟨"P1", 0, 4, 4, none, none⟩, ⟨"P2", 2, 5, 5, none, none⟩])).P.map
        (·.completion) = [some 6, none] := by
  constructor <;> decide

/-- Claim C6 counterexample: a single process P1(0,4) under quantum 2 runs
two consecutive quanta, and `coalesce_timeline` merges them into the one
normalized segment `[0, 4)` of length 4 > 2.  That segment is P1's final
(only) segment, but the claimed exception does not apply: P1's remaining
work at the segment's start was its full burst 4, not less than the
quantum. -/
theorem c6_normalized_segment_exceeds_quantum :
    simulate_rr [⟨"P1", 0, 4, 4, none, none⟩] 2
        = Except.ok ([⟨"P1", 0, 4, 0, some 0, some 4⟩], [(0, 4, some "P1")]) ∧
      ¬ ((4 : Int) - 0 ≤ 2) ∧ ¬ ((4 : Int) < 2) := by
  refine ⟨by decide, by decide, by decide⟩

/-- Claim C7: the FCFS worked example.  Processes P1(0,5), P2(2,3),
P3(4,2), P4(6,4) yield the normalized timeline `P1[0,5) P2[5,8) P3[8,10)
P4[10,14)`, waiting times 0, 3, 4, 4, average waiting 11/4 = 2.75, and
CPU utilization 100%. -/
theorem c7_fcfs_worked_example :
    simulate_fcfs
        [⟨"P1", 0, 5, 5, none, none⟩, ⟨"P2", 2, 3, 3, none, none⟩,
         ⟨"P3", 4, 2, 2, none, none⟩, ⟨"P4", 6, 4, 4, none, none⟩]
        = ([⟨"P1", 0, 5, 0, some 0, some 5⟩, ⟨"P2", 2, 3, 0, some 5, some 8⟩,
            ⟨"P3", 4, 2, 0, some 8, some 10⟩, ⟨"P4", 6, 4, 0, some 10, some 14⟩],
           [(0, 5, some "P1"), (5, 8, some "P2"), (8, 10, some "P3"), (10, 14, some "P4")]) ∧
      compute_metrics
        [⟨"P1", 0, 5, 0, some 0, some 5⟩, ⟨"P2", 2, 3, 0, some 5, some 8⟩,
         ⟨"P3", 4, 2, 0, some 8, some 10⟩, ⟨"P4", 6, 4, 0, some 10, some 14⟩]
        = some { per_process :=
                   [("P1", { WT := 0, TAT := 5, RT := 0, CT := 5 }),
                    ("P2", { WT := 3, TAT := 6, RT := 3, CT := 8 }),
                    ("P3", { WT := 4, TAT := 6, RT := 4, CT := 10 }),
                    ("P4", { WT := 4, TAT := 8, RT := 4, CT := 14 })],
                 overall := some
                   { AVG_WT := (11 : Rat) / 4, AVG_TAT := (25 : Rat) / 4,
                     AVG_RT := (11 : Rat) / 4, THROUGHPUT := some ((2 : Rat) / 7),
                     CPU_UTIL := 100 } } := by
  constructor
  · decide
  · unfold compute_metrics
    norm_num [minList, maxList, List.mapM, List.mapM.loop]

/-- Claim C3 counterexample: the caller's records are NOT unchanged after
a simulation returns — `update_originals` writes the computed
`first_start`, `completion` and `remaining` back into the caller's list.
A single process P1(0,1) comes back with `completion = some 1` and
`remaining = 0` instead of its pristine state. -/
theorem c3_originals_are_mutated :
    (simulate_fcfs [⟨"P1", 0, 1, 1, none, none⟩]).1 ≠ [⟨"P1", 0, 1, 1, none, none⟩] := by
  decide

/-- Claim C9 counterexample: when both fields are malformed (burst ≤ 0 and
arrival < 0) construction fails with `InvalidBurst`, not `InvalidArrival`
— the burst check runs first — so "fails with InvalidArrival exactly when
arrival < 0" is false as stated. -/
theorem c9_burst_check_shadows_arrival_check :
    mkProcess "P" (-1) (-1) = Except.error SchedError.InvalidBurst ∧
      mkProcess "P" (-1) (-1) ≠ Except.error SchedError.InvalidArrival ∧
      ((-1 : Int) < 0) := by
  refine ⟨by decide, by decide, by decide⟩

/-! ## Structural lemmas about `update_originals` and cloning -/

/-- Writing back computed fields never changes a record's identity fields
`(pid, arrival, burst)`. -/
theorem map_descriptor_update_originals (t s : List Process) :
    (update_originals t s).map descriptor = t.map descriptor := by
  unfold update_originals
  induction t with
  | nil => rfl
  | cons a t ih =>
    simp only [List.map_cons, List.map_map] at *
    cases h : s.reverse.find? (fun x => x.pid == a.pid) <;>
      simp [h, descriptor, ih]

/-- Cloning reads only the identity fields, which `update_originals`
preserves: cloning the written-back originals reproduces the clones of
the pristine originals. -/
theorem deep_copy_update_originals (t s : List Process) :
    deep_copy_procs (update_originals t s) = deep_copy_procs t := by
  unfold update_originals deep_copy_procs
  induction t with
  | nil => rfl
  | cons a t ih =>
    simp only [List.map_cons, List.map_map] at *
    cases h : s.reverse.find? (fun x => x.pid == a.pid) <;> simp [h, ih]

/-- Writing the same computed fields back twice is the same as writing
them once (`update_originals` leaves `pid` untouched, so the second
lookup finds the same source record). -/
theorem update_originals_idem (t s : List Process) :
    update_originals (update_originals t s) s = update_originals t s := by
  unfold update_originals
  induction t with
  | nil => rfl
  | cons a t ih =>
    simp only [List.map_cons, List.map_map] at *
    cases h : s.reverse.find? (fun x => x.pid == a.pid) <;> simp [h, ih]

/-- `sjf_raw` only reads the cloned working set, so inputs with equal
clones produce equal raw results. -/
theorem sjf_raw_congr {a b : List Process}
    (h : deep_copy_procs a = deep_copy_procs b) : sjf_raw a = sjf_raw b := by
  unfold sjf_raw
  rw [h]

/-- `rr_raw` only reads the cloned working set, so inputs with equal
clones produce equal raw results. -/
theorem rr_raw_congr {a b : List Process} (q : Int)
    (h : deep_copy_procs a = deep_copy_procs b) : rr_raw a q = rr_raw b q := by
  unfold rr_raw rrInit rrFuel
  rw [h]

/-- Claim C3 (amended): the engine does write the computed fields
(`first_start`, `completion`, `remaining`) back into the caller's records
at the end of a run (see `c3_originals_are_mutated`), but during the
simulation it mutates only its private clones, and the caller-supplied
identity data — `pid`, `arrival`, `burst` — of every record is preserved
unchanged by all three algorithms. -/
theorem c3_identity_fields_never_mutated (procs : List Process) (q : Int) (hq : 0 < q) :
    (simulate_fcfs procs).1.map descriptor = procs.map descriptor ∧
      (simulate_sjf_nonpreemptive procs).1.map descriptor = procs.map descriptor ∧
      ∀ o tl, simulate_rr procs q = .ok (o, tl) →
        o.map descriptor = procs.map descriptor := by
  refine ⟨?_, ?_, ?_⟩
  · simp only [simulate_fcfs]
    exact map_descriptor_update_originals ..
  · simp only [simulate_sjf_nonpreemptive]
    exact map_descriptor_update_originals ..
  · intro o tl h
    simp only [simulate_rr, if_neg (not_le.mpr hq)] at h
    cases h
    exact map_descriptor_update_originals ..

/-- Witness for `c3_identity_fields_never_mutated` at P1(0,2), quantum 1. -/
theorem c3_identity_fields_never_mutated_witness :
    (0 : Int) < 1 ∧
      (simulate_fcfs [⟨"P1", 0, 2, 2, none, none⟩]).1.map descriptor
        = [⟨"P1", 0, 2, 2, none, none⟩].map descriptor :=
  ⟨by norm_num,
   (c3_identity_fields_never_mutated [⟨"P1", 0, 2, 2, none, none⟩] 1 (by norm_num)).1⟩

/-- Claim C9 (amended): construction fails with `InvalidBurst` exactly
when `burst ≤ 0`; it fails with `InvalidArrival` exactly when `burst > 0`
and `arrival < 0` (the burst check runs first and shadows the arrival
check, see `c9_burst_check_shadows_arrival_check`); when `burst > 0` and
`arrival ≥ 0` it succeeds with `remaining = burst` and `first_start`,
`completion` unset. -/
theorem c9_construction_validation (pid : String) (a b : Int) :
    (mkProcess pid a b = .error .InvalidBurst ↔ b ≤ 0) ∧
      (mkProcess pid a b = .error .InvalidArrival ↔ (0 < b ∧ a < 0)) ∧
      (0 < b → 0 ≤ a → mkProcess pid a b = .ok ⟨pid, a, b, b, none, none⟩) := by
  unfold mkProcess
  split_ifs with h1 h2 <;> refine ⟨?_, ?_, ?_⟩ <;> simp_all

/-- Witness for `c9_construction_validation` at pid "P", arrival 0,
burst 1. -/
theorem c9_construction_validation_witness :
    (0 : Int) < 1 ∧ (0 : Int) ≤ 0 ∧
      mkProcess "P" 0 1 = .ok ⟨"P", 0, 1, 1, none, none⟩ :=
  ⟨by norm_num, by norm_num,
   (c9_construction_validation "P" 0 1).2.2 (by norm_num) (by norm_num)⟩

/-- Claim C10: determinism and re-runnability.  In this model every
algorithm is a pure function, so running it twice on equal inputs yields
definitionally equal results; the substantive content is the second half
of the claim: running an algorithm again over the very records the first
run wrote back produces the identical (originals, timeline) pair — the
clone step reads only the identity fields, which write-back preserves.
Identical metrics follow, since the metrics are `compute_metrics` of the
returned originals (last three conjuncts). -/
theorem c10_rerun_on_written_back_records (procs : List Process) (q : Int) (hq : 0 < q) :
    simulate_fcfs (simulate_fcfs procs).1 = simulate_fcfs procs ∧
      simulate_sjf_nonpreemptive (simulate_sjf_nonpreemptive procs).1
          = simulate_sjf_nonpreemptive procs ∧
      (∀ o tl, simulate_rr procs q = .ok (o, tl) → simulate_rr o q = .ok (o, tl)) ∧
      compute_metrics (simulate_fcfs (simulate_fcfs procs).1).1
          = compute_metrics (simulate_fcfs procs).1 ∧
      compute_metrics (simulate_sjf_nonpreemptive (simulate_sjf_nonpreemptive procs).1).1
          = compute_metrics (simulate_sjf_nonpreemptive procs).1 := by
  have hf : simulate_fcfs (simulate_fcfs procs).1 = simulate_fcfs procs := by
    simp only [simulate_fcfs]
    rw [deep_copy_update_originals, update_originals_idem]
  have hs : simulate_sjf_nonpreemptive (simulate_sjf_nonpreemptive procs).1
      = simulate_sjf_nonpreemptive procs := by
    simp only [simulate_sjf_nonpreemptive]
    rw [sjf_raw_congr (deep_copy_update_originals ..), update_originals_idem]
  refine ⟨hf, hs, ?_, by rw [hf], by rw [hs]⟩
  intro o tl h
  simp only [simulate_rr, if_neg (not_le.mpr hq)] at h ⊢
  cases h
  rw [rr_raw_congr q (deep_copy_update_originals ..), update_originals_idem]

/-- Witness for `c10_rerun_on_written_back_records` at P1(0,2), P2(1,1),
quantum 1. -/
theorem c10_rerun_on_written_back_records_witness :
    (0 : Int) < 1 ∧
      simulate_fcfs (simulate_fcfs [⟨"P1", 0, 2, 2, none, none⟩, ⟨"P2", 1, 1, 1, none, none⟩]).1
        = simulate_fcfs [⟨"P1", 0, 2, 2, none, none⟩, ⟨"P2", 1, 1, 1, none, none⟩] :=
  ⟨by norm_num,
   (c10_rerun_on_written_back_records
     [⟨"P1", 0, 2, 2, none, none⟩, ⟨"P2", 1, 1, 1, none, none⟩] 1 (by norm_num)).1⟩

/-! ## The quantum bound on raw Round-Robin segments -/

/-- Every busy segment of `tl` has length at most `q`. -/
def BusyBounded (q : Int) (tl : List Seg) : Prop :=
  ∀ s e pid, ((s, e, some pid) : Seg) ∈ tl → e - s ≤ q

theorem busyBounded_append_idle {q : Int} {tl : List Seg} {a b : Int}
    (h : BusyBounded q tl) : BusyBounded q (tl ++ [(a, b, none)]) := by
  intro s e pid hm
  rcases List.mem_append.mp hm with h1 | h1
  · exact h s e pid h1
  · simp at h1

theorem busyBounded_rrIdle {q : Int} {st : RRState} (h : BusyBounded q st.timeline) :
    BusyBounded q (rrIdle st).timeline := by
  simp only [rrIdle]
  split
  · exact h
  · split
    · exact busyBounded_append_idle h
    · exact h

theorem busyBounded_rrIter {q : Int} {st : RRState} (h : BusyBounded q st.timeline) :
    BusyBounded q (rrIter q st).timeline := by
  have h1 : BusyBounded q (if st.ready.isEmpty then rrIdle st else st).timeline := by
    split
    · exact busyBounded_rrIdle h
    · exact h
  simp only [rrIter]
  generalize (if st.ready.isEmpty = true then rrIdle st else st) = st1 at h1 ⊢
  split
  · exact h1
  · split
    · exact h1
    · split
      · exact h1
      · intro s e pid hm
        simp only [apply_ite RRState.timeline, ite_self, List.mem_append,
          List.mem_singleton, Prod.mk.injEq] at hm
        rcases hm with hm | ⟨hs, he, hp⟩
        · exact h1 s e pid hm
        · omega

theorem busyBounded_rrLoop {q : Int} (fuel : Nat) {st : RRState}
    (h : BusyBounded q st.timeline) : BusyBounded q (rrLoop q fuel st).timeline := by
  induction fuel generalizing st with
  | zero => exact h
  | succ n ih =>
    simp only [rrLoop]
    split
    · exact h
    · split
      · exact ih (busyBounded_rrIter h)
      · exact h

/-- Claim C6 (amended): in the RAW (pre-normalization) Round-Robin
timeline, every busy segment has length at most the quantum — each
dispatch emits one slice of exactly `min(quantum, remaining)` time units.
The original claim about the NORMALIZED timeline is false
(`c6_normalized_segment_exceeds_quantum`): `coalesce_timeline` merges a
process's consecutive slices into one segment that can be arbitrarily
many quanta long. -/
theorem c6_raw_rr_segment_length_le_quantum (procs : List Process) (q : Int) :
    ∀ s e pid, ((s, e, some pid) : Seg) ∈ (rr_raw procs q).timeline → e - s ≤ q := by
  have hinit : BusyBounded q (rrInit procs).timeline := by
    intro s e pid hm
    simp [rrInit] at hm
  exact busyBounded_rrLoop (rrFuel procs) hinit

/-- Witness for `c6_raw_rr_segment_length_le_quantum`: the first raw slice
of P1(0,4) under quantum 2 is `[0, 2)`, of length at most 2. -/
theorem c6_raw_rr_segment_length_le_quantum_witness :
    ((0 : Int), (2 : Int), some "P1") ∈ (rr_raw [⟨"P1", 0, 4, 4, none, none⟩] 2).timeline ∧
      (2 : Int) - 0 ≤ 2 :=
  ⟨by decide,
   c6_raw_rr_segment_length_le_quantum [⟨"P1", 0, 4, 4, none, none⟩] 2 0 2 "P1" (by decide)⟩

/-! ## SJF dispatch minimality -/

/-- `sjfRel` is reflexive. -/
theorem sjfRel_refl (a : Process) : sjfRel a a :=
  Or.inr ⟨rfl, Or.inr ⟨rfl, le_refl _⟩⟩

/-- `sjfRel` depends only on the `burst`, `arrival` and `pid` fields. -/
theorem sjfRel_congr {a a2 b b2 : Process}
    (ha : a2.burst = a.burst ∧ a2.arrival = a.arrival ∧ a2.pid = a.pid)
    (hb : b2.burst = b.burst ∧ b2.arrival = b.arrival ∧ b2.pid = b.pid)
    (h : sjfRel a b) : sjfRel a2 b2 := by
  unfold sjfRel at *
  rw [ha.1, ha.2.1, ha.2.2, hb.1, hb.2.1, hb.2.2]
  exact h

/-- Relates a record of the working set at a point of the SJF loop where
the clock reads `t` to the same record at the end of the loop: identity
fields never change, an already-completed record is frozen, and any
completion assigned later is strictly greater than `t`. -/
def StableTo (t : Int) (a b : Process) : Prop :=
  b.pid = a.pid ∧ b.arrival = a.arrival ∧ b.burst = a.burst ∧
    (a.completion ≠ none → b = a) ∧
    (∀ c, b.completion = some c → a.completion = some c ∨ t < c)

theorem stableTo_refl (t : Int) (a : Process) : StableTo t a a :=
  ⟨rfl, rfl, rfl, fun _ => rfl, fun _ hc => Or.inl hc⟩

theorem stableTo_mono {t t2 : Int} (h : t ≤ t2) {a b : Process} :
    StableTo t2 a b → StableTo t a b := by
  rintro ⟨h1, h2, h3, h4, h5⟩
  refine ⟨h1, h2, h3, h4, fun c hc => ?_⟩
  rcases h5 c hc with hcc | hcc
  · exact Or.inl hcc
  · exact Or.inr (lt_of_le_of_lt h hcc)

theorem stableTo_trans {t t2 : Int} (htt : t ≤ t2) {a b c : Process} :
    StableTo t a b → StableTo t2 b c → StableTo t a c := by
  rintro ⟨h1, h2, h3, h4, h5⟩ ⟨g1, g2, g3, g4, g5⟩
  refine ⟨g1.trans h1, g2.trans h2, g3.trans h3, ?_, ?_⟩
  · intro ha
    have hb : b = a := h4 ha
    have hbne : b.completion ≠ none := by rw [hb]; exact ha
    rw [g4 hbne, hb]
  · intro cc hcc
    rcases g5 cc hcc with hc1 | hc1
    · exact h5 cc hc1
    · exact Or.inr (lt_of_le_of_lt htt hc1)

theorem forall2_exists_left {α β : Type} {r : α → β → Prop} :
    ∀ {l1 : List α} {l2 : List β}, List.Forall₂ r l1 l2 →
      ∀ a ∈ l1, ∃ b ∈ l2, r a b := by
  intro l1 l2 h
  induction h with
  | nil => intro a ha; exact absurd ha (List.not_mem_nil a)
  | @cons x y l1x l2x hr _ ih =>
    intro a ha
    rcases List.mem_cons.mp ha with rfl | ha2
    · exact ⟨y, List.mem_cons_self _ _, hr⟩
    · obtain ⟨b, hb, hrb⟩ := ih a ha2
      exact ⟨b, List.mem_cons_of_mem _ hb, hrb⟩

theorem forall2_exists_right {α β : Type} {r : α → β → Prop} :
    ∀ {l1 : List α} {l2 : List β}, List.Forall₂ r l1 l2 →
      ∀ b ∈ l2, ∃ a ∈ l1, r a b := by
  intro l1 l2 h
  induction h with
  | nil => intro b hb; exact absurd hb (List.not_mem_nil b)
  | @cons x y l1x l2x hr _ ih =>
    intro b hb
    rcases List.mem_cons.mp hb with rfl | hb2
    · exact ⟨x, List.mem_cons_self _ _, hr⟩
    · obtain ⟨a, ha, hra⟩ := ih b hb2
      exact ⟨a, List.mem_cons_of_mem _ ha, hra⟩

theorem forall2_trans {α : Type} {r s u : α → α → Prop}
    (h : ∀ a b c, r a b → s b c → u a c) :
    ∀ {l1 l2 l3 : List α}, List.Forall₂ r l1 l2 → List.Forall₂ s l2 l3 →
      List.Forall₂ u l1 l3 := by
  intro l1 l2 l3 h12
  induction h12 generalizing l3 with
  | nil =>
    intro h23
    cases h23
    exact List.Forall₂.nil
  | cons hr _ ih =>
    intro h23
    cases h23 with
    | cons hs h23t => exact List.Forall₂.cons (h _ _ _ hr hs) (ih h23t)

/-- Replacing the (unique) record with pid `pidv` by a record with the
same pid leaves the pid list unchanged. -/
theorem map_pid_update (P : List Process) (pidv : String) (p2 : Process)
    (hp2 : p2.pid = pidv) :
    ((P.map fun q => if q.pid = pidv then p2 else q).map Process.pid)
      = P.map Process.pid := by
  induction P with
  | nil => rfl
  | cons a P ih =>
    simp only [List.map_cons, ih]
    congr 1
    split
    · next h => rw [hp2, h]
    · rfl

/-- A timeline segment is SJF-sound for the final working set `Pf`: if it
is a busy segment, the dispatched process is in `Pf`, the segment runs its
full burst, and its `(burst, arrival, pid)` key is minimal among the
processes of `Pf` that had arrived by the segment start and were not yet
finished then (final completion absent or past the segment start). -/
def GoodSeg (Pf : List Process) (sg : Seg) : Prop :=
  ∀ pid, sg.2.2 = some pid →
    ∃ pr, pr ∈ Pf ∧ pr.pid = pid ∧ sg.2.1 = sg.1 + pr.burst ∧
      ∀ q, q ∈ Pf → q.arrival ≤ sg.1 →
        (∀ c, q.completion = some c → sg.1 < c) → sjfRel pr q

/-- The main SJF loop invariant: from any state satisfying the
bookkeeping invariants (positive bursts, duplicate-free pids, `done`
agreeing with `completion`, completions bounded by the clock), the loop
yields a final working set related to the current one by `StableTo t`,
and every emitted segment is idle or SJF-sound for the final set. -/
theorem sjfLoop_invariant (fuel : Nat) :
    ∀ (P : List Process) (done : List String) (t : Int) (tl : List Seg),
      (∀ p ∈ P, 0 < p.burst) →
      ((P.map Process.pid).Nodup) →
      (∀ p ∈ P, p.pid ∈ done ↔ p.completion ≠ none) →
      (∀ p ∈ P, ∀ c, p.completion = some c → c ≤ t) →
      List.Forall₂ (StableTo t) P (sjfLoop fuel P done t tl).1 ∧
        ∀ sg ∈ (sjfLoop fuel P done t tl).2,
          sg ∈ tl ∨ GoodSeg (sjfLoop fuel P done t tl).1 sg := by
  induction fuel with
  | zero =>
    intro P done t tl _ _ _ _
    exact ⟨List.forall₂_same.mpr fun x _ => stableTo_refl t x,
           fun sg hsg => Or.inl hsg⟩
  | succ fuel ih =>
    intro P done t tl hb hnd hdone hcompl
    by_cases hlen : done.length < P.length
    · simp only [sjfLoop]
      rw [if_pos hlen]
      by_cases hre :
          (P.filter fun p => p.arrival ≤ t ∧ p.pid ∉ done).isEmpty = true
      · rw [if_pos hre]
        rcases hnext :
            minList ((P.filter fun p => p.pid ∉ done).map (·.arrival)) with
          _ | next_t
        · simp only [hnext]
          exact ⟨List.forall₂_same.mpr fun x _ => stableTo_refl t x,
                 fun sg hsg => Or.inl hsg⟩
        · simp only [hnext]
          by_cases htn : t < next_t
          · rw [if_pos htn]
            obtain ⟨hF, hS⟩ := ih P done next_t (tl ++ [(t, next_t, none)]) hb hnd
              hdone (fun p hp c hc => le_trans (hcompl p hp c hc) (le_of_lt htn))
            refine ⟨List.Forall₂.imp
              (fun a b hab => stableTo_mono (le_of_lt htn) hab) hF, ?_⟩
            intro sg hsg
            rcases hS sg hsg with hin | hgood
            · rcases List.mem_append.mp hin with h1 | h1
              · exact Or.inl h1
              · simp only [List.mem_singleton] at h1
                subst h1
                refine Or.inr fun pid0 hpid0 => ?_
                exact absurd hpid0 (by simp)
            · exact Or.inr hgood
          · rw [if_neg htn]
            exact ih P done t tl hb hnd hdone hcompl
      · rw [if_neg hre]
        rcases hsort : List.insertionSort sjfRel
            (P.filter fun p => p.arrival ≤ t ∧ p.pid ∉ done) with _ | ⟨p, rest2⟩
        · simp only [hsort]
          exact ⟨List.forall₂_same.mpr fun x _ => stableTo_refl t x,
                 fun sg hsg => Or.inl hsg⟩
        · -- dispatch of the head `p` of the sorted ready list
          have hpr : p ∈ P.filter fun p => p.arrival ≤ t ∧ p.pid ∉ done := by
            have hpS : p ∈ List.insertionSort sjfRel
                (P.filter fun p => p.arrival ≤ t ∧ p.pid ∉ done) := by
              rw [hsort]; exact List.mem_cons_self _ _
            exact (List.mem_insertionSort sjfRel).mp hpS
          have hready := hpr
          simp only [List.mem_filter, decide_eq_true_eq] at hready
          have hpP : p ∈ P := hready.1
          have hparr : p.arrival ≤ t := hready.2.1
          have hpnd : p.pid ∉ done := hready.2.2
          have hpburst : 0 < p.burst := hb p hpP
          have hpcompl : p.completion = none := by
            rcases hc : p.completion with _ | c
            · rfl
            · exact absurd ((hdone p hpP).mpr (by rw [hc]; simp)) hpnd
          have hminim : ∀ x ∈ P.filter fun p => p.arrival ≤ t ∧ p.pid ∉ done,
              sjfRel p x := by
            intro x hx
            have hxs : x ∈ List.insertionSort sjfRel
                (P.filter fun p => p.arrival ≤ t ∧ p.pid ∉ done) :=
              (List.mem_insertionSort sjfRel).mpr hx
            rw [hsort] at hxs
            rcases List.mem_cons.mp hxs with rfl | hx2
            · exact sjfRel_refl x
            · have hsorted : List.Sorted sjfRel (p :: rest2) := by
                rw [← hsort]
                exact List.sorted_insertionSort sjfRel _
              exact List.rel_of_sorted_cons hsorted x hx2
          have huniq := List.inj_on_of_nodup_map hnd
          simp only [hsort]
          generalize hfs :
            (match p.first_start with
             | none => some t
             | some v => some v : Option Int) = fs
          set t2 := t + p.burst with ht2
          set p2 : Process :=
            ⟨p.pid, p.arrival, p.burst, 0, fs, some t2⟩ with hp2
          set P2 := P.map fun q => if q.pid = p.pid then p2 else q with hP2
          set done2 := done ++ [p.pid] with hdone2
          set tl2 := tl ++ [(t, t2, some p.pid)] with htl2
          have htt2 : t ≤ t2 := by rw [ht2]; omega
          have i1 : ∀ x ∈ P2, 0 < x.burst := by
            intro x hx
            rw [hP2] at hx
            rcases List.mem_map.mp hx with ⟨q, hq, rfl⟩
            by_cases hqp : q.pid = p.pid
            · rw [if_pos hqp]; exact hpburst
            · rw [if_neg hqp]; exact hb q hq
          have i2 : (P2.map Process.pid).Nodup := by
            rw [hP2, map_pid_update P p.pid p2 rfl]
            exact hnd
          have i3 : ∀ x ∈ P2, x.pid ∈ done2 ↔ x.completion ≠ none := by
            intro x hx
            rw [hP2] at hx
            rcases List.mem_map.mp hx with ⟨q, hq, rfl⟩
            by_cases hqp : q.pid = p.pid
            · rw [if_pos hqp, hdone2]
              constructor
              · intro _; rw [hp2]; simp
              · intro _; simp
            · rw [if_neg hqp, hdone2]
              simp only [List.mem_append, List.mem_singleton]
              constructor
              · rintro (hd | hd)
                · exact (hdone q hq).mp hd
                · exact absurd hd hqp
              · intro hcne
                exact Or.inl ((hdone q hq).mpr hcne)
          have i4 : ∀ x ∈ P2, ∀ c, x.completion = some c → c ≤ t2 := by
            intro x hx c hc
            rw [hP2] at hx
            rcases List.mem_map.mp hx with ⟨q, hq, rfl⟩
            by_cases hqp : q.pid = p.pid
            · rw [if_pos hqp, hp2] at hc
              simp only [Option.some.injEq] at hc
              omega
            · rw [if_neg hqp] at hc
              exact le_trans (hcompl q hq c hc) htt2
          obtain ⟨hF2, hS2⟩ := ih P2 done2 t2 tl2 i1 i2 i3 i4
          have hF1 : List.Forall₂ (StableTo t) P P2 := by
            rw [hP2, List.forall₂_map_right_iff, List.forall₂_same]
            intro x hx
            by_cases hxp : x.pid = p.pid
            · have hxep : x = p := huniq hx hpP hxp
              subst hxep
              rw [if_pos rfl]
              refine ⟨rfl, rfl, rfl, fun hne => absurd hpcompl hne, ?_⟩
              intro c hc
              rw [hp2] at hc
              simp only [Option.some.injEq] at hc
              right
              omega
            · rw [if_neg hxp]
              exact stableTo_refl t x
          refine ⟨forall2_trans (r := StableTo t) (s := StableTo t2)
            (u := StableTo t) (fun a b c hab hbc => stableTo_trans htt2 hab hbc)
            hF1 hF2, ?_⟩
          intro sg hsg
          rcases hS2 sg hsg with hin | hgood
          · rw [htl2] at hin
            rcases List.mem_append.mp hin with h1 | h1
            · exact Or.inl h1
            · simp only [List.mem_singleton] at h1
              subst h1
              right
              intro pid0 hpid0
              have hpid0e : p.pid = pid0 := Option.some.inj hpid0
              have hp2P2 : p2 ∈ P2 := by
                rw [hP2]
                exact List.mem_map.mpr ⟨p, hpP, by rw [if_pos rfl]⟩
              obtain ⟨pf, hpfPf, hstp⟩ := forall2_exists_left hF2 p2 hp2P2
              have hpffix : pf = p2 := hstp.2.2.2.1 (by rw [hp2]; simp)
              subst hpffix
              refine ⟨p2, hpfPf, ?_, ?_, ?_⟩
              · rw [hp2]; exact hpid0e
              · rw [hp2, ht2]
              · intro qf hqfPf hqarr hqcompl
                obtain ⟨q2, hq2P2, hstq⟩ := forall2_exists_right hF2 qf hqfPf
                rw [hP2] at hq2P2
                rcases List.mem_map.mp hq2P2 with ⟨q, hqP, hq2eq⟩
                by_cases hqp : q.pid = p.pid
                · rw [if_pos hqp] at hq2eq
                  subst hq2eq
                  have hqffix : qf = p2 := hstq.2.2.2.1 (by rw [hp2]; simp)
                  rw [hqffix]
                  exact sjfRel_refl p2
                · rw [if_neg hqp] at hq2eq
                  subst hq2eq
                  rcases hqc : q.completion with _ | c
                  · have hqnd : q.pid ∉ done := by
                      intro hd
                      have hne := (hdone q hqP).mp hd
                      rw [hqc] at hne
                      exact hne rfl
                    have hqarr2 : q.arrival ≤ t := by
                      have harr_eq : qf.arrival = q.arrival := hstq.2.1
                      rw [harr_eq] at hqarr
                      exact hqarr
                    have hq_ready :
                        q ∈ P.filter fun p => p.arrival ≤ t ∧ p.pid ∉ done := by
                      rw [List.mem_filter]
                      exact ⟨hqP, decide_eq_true ⟨hqarr2, hqnd⟩⟩
                    refine sjfRel_congr ⟨?_, ?_, ?_⟩
                      ⟨hstq.2.2.1, hstq.2.1, hstq.1⟩ (hminim q hq_ready)
                    · rw [hp2]
                    · rw [hp2]
                    · rw [hp2]
                  · exfalso
                    have hcle : c ≤ t := hcompl q hqP c hqc
                    have hqffix : qf = q := hstq.2.2.2.1 (by rw [hqc]; simp)
                    have hlt : t < c := hqcompl c (by rw [hqffix, hqc])
                    omega
          · exact Or.inr hgood
    · simp only [sjfLoop]
      rw [if_neg hlen]
      exact ⟨List.forall₂_same.mpr fun x _ => stableTo_refl t x,
             fun sg hsg => Or.inl hsg⟩


/-- Claim C8: SJF dispatch optimality.  For a valid process set (positive
bursts, duplicate-free pids), every busy segment `(s, e, pid)` of the raw
SJF timeline is the full, uninterrupted burst of the dispatched process
(`e = s + burst`, non-preemption), and at the dispatch instant `s` that
process's `(burst, arrival, pid)` key is minimal — in particular its
burst is least — among all processes of the final working set that had
arrived by `s` and were not yet finished at `s` (final completion absent
or later than `s`). -/
theorem c8_sjf_dispatch_minimality (procs : List Process)
    (hb : ∀ p ∈ procs, 0 < p.burst)
    (hnd : (procs.map Process.pid).Nodup) :
    ∀ s e pid, ((s, e, some pid) : Seg) ∈ (sjf_raw procs).2 →
      ∃ pr, pr ∈ (sjf_raw procs).1 ∧ pr.pid = pid ∧ e = s + pr.burst ∧
        ∀ q, q ∈ (sjf_raw procs).1 → q.arrival ≤ s →
          (∀ c, q.completion = some c → s < c) → sjfRel pr q := by
  have i1 : ∀ x ∈ deep_copy_procs procs, 0 < x.burst := by
    intro x hx
    rcases List.mem_map.mp hx with ⟨q, hq, rfl⟩
    exact hb q hq
  have i2 : ((deep_copy_procs procs).map Process.pid).Nodup := by
    unfold deep_copy_procs
    rw [List.map_map]
    exact hnd
  have i3 : ∀ x ∈ deep_copy_procs procs,
      x.pid ∈ ([] : List String) ↔ x.completion ≠ none := by
    intro x hx
    rcases List.mem_map.mp hx with ⟨q, hq, rfl⟩
    constructor
    · intro h
      exact absurd h (List.not_mem_nil _)
    · intro h
      exact absurd rfl h
  have i4 : ∀ x ∈ deep_copy_procs procs, ∀ c, x.completion = some c →
      c ≤ (minList ((deep_copy_procs procs).map (·.arrival))).getD 0 := by
    intro x hx c hc
    rcases List.mem_map.mp hx with ⟨q, hq, rfl⟩
    exact absurd hc (by simp)
  obtain ⟨hF, hS⟩ := sjfLoop_invariant (2 * (deep_copy_procs procs).length + 1)
    (deep_copy_procs procs) []
    ((minList ((deep_copy_procs procs).map (·.arrival))).getD 0) [] i1 i2 i3 i4
  intro s e pid hm
  rcases hS (s, e, some pid) hm with h1 | h2
  · exact absurd h1 (List.not_mem_nil _)
  · obtain ⟨pr, hpr, hpid, hlen2, hmin⟩ := h2 pid rfl
    exact ⟨pr, hpr, hpid, hlen2, hmin⟩

/-- Witness for `c8_sjf_dispatch_minimality`: with P1(0,2) and P2(0,1),
SJF dispatches the shorter P2 first over `[0, 1)`. -/
theorem c8_sjf_dispatch_minimality_witness :
    (∀ p ∈ [(⟨"P1", 0, 2, 2, none, none⟩ : Process), ⟨"P2", 0, 1, 1, none, none⟩],
        0 < p.burst) ∧
      (([(⟨"P1", 0, 2, 2, none, none⟩ : Process), ⟨"P2", 0, 1, 1, none, none⟩].map
          Process.pid).Nodup) ∧
      ∃ pr, pr ∈ (sjf_raw [⟨"P1", 0, 2, 2, none, none⟩, ⟨"P2", 0, 1, 1, none, none⟩]).1 ∧
        pr.pid = "P2" ∧ (1 : Int) = 0 + pr.burst ∧
        ∀ q, q ∈ (sjf_raw [⟨"P1", 0, 2, 2, none, none⟩, ⟨"P2", 0, 1, 1, none, none⟩]).1 →
          q.arrival ≤ 0 → (∀ c, q.completion = some c → 0 < c) → sjfRel pr q :=
  ⟨by decide, by decide,
   c8_sjf_dispatch_minimality
     [⟨"P1", 0, 2, 2, none, none⟩, ⟨"P2", 0, 1, 1, none, none⟩]
     (by decide) (by decide) 0 1 "P2" (by decide)⟩

end ProcSim
